import Mathlib

/-!
Verification development for the birb_lm retrieval-augmented query pipeline.

The definitions below are shallow embeddings of the JavaScript source:
  - src/src/llmAdapter.js   (chunkText, saveIndex, loadIndex, cosineSimilarity,
                             searchIndex, buildAndSaveIndex)
  - src/src/retriever.js    (duplicate chunkText, saveIndex, loadIndex,
                             cosineSimilarity, unfiltered searchIndex)
  - src/src/server.js       (ingestion progress machine, sanitizeHistory,
                             streaming relay handlers; the file holds a current
                             snapshot, lines 1-772, and an earlier snapshot,
                             lines 773-1242)

Numbers are modelled as rationals, JavaScript arrays as lists, and the
word-window chunker at the level of the word array produced by
text.split on whitespace runs.
-/

namespace BirbLm

/-- Word-window chunker loop from chunkText (src/src/llmAdapter.js lines
289-301, identical in src/src/retriever.js lines 72-84), one constructor
case per loop iteration, with an explicit fuel bound so that the
non-terminating configurations of the JavaScript while loop are
representable.  The JavaScript body is

  while (start < words.length)
    end = Math.min(words.length, start + chunkSize)
    chunks.push(words.slice(start, end).join(lone space))
    if (end == words.length) break
    start = Math.max(0, end - overlap)

Chunks are kept as word lists (slice start end = drop start, take (end - start));
Math.max 0 of the integer end - overlap is truncated subtraction on Nat. -/
def chunkTextLoop (words : List String) (size overlap : Nat) :
    Nat → Nat → Option (List (List String))
  | 0, _ => none
  | fuel + 1, start =>
    if start < words.length then
      let e := min words.length (start + size)
      let c := (words.drop start).take (e - start)
      if e = words.length then
        some [c]
      else
        match chunkTextLoop words size overlap fuel (e - overlap) with
        | none => none
        | some rest => some (c :: rest)
    else
      some []

/-- Word-level chunkText: the loop above entered at start = 0.  The source
guard `if (!text) return []` corresponds to the empty word list, for which
the loop immediately returns the empty chunk list. -/
def chunkText (words : List String) (size overlap fuel : Nat) :
    Option (List (List String)) :=
  chunkTextLoop words size overlap fuel 0

/-- Re-concatenation of chunks with the overlapping words removed: the
first chunk is kept whole and every later chunk drops its first
`overlap` words (the words it shares with its predecessor). -/
def reconstructChunks (overlap : Nat) : List (List String) → List String
  | [] => []
  | c :: rest => c ++ (rest.map (List.drop overlap)).flatten

lemma chunkTextLoop_diverges (words : List String) (size overlap : Nat)
    (hov : size ≤ overlap) (hlen : size < words.length) :
    ∀ fuel, chunkTextLoop words size overlap fuel 0 = none := by
  intro fuel
  induction fuel with
  | zero => rfl
  | succ n ih =>
    have h0 : 0 < words.length := Nat.lt_of_le_of_lt (Nat.zero_le _) hlen
    have hmin : min words.length (0 + size) = size := by
      rw [Nat.zero_add]
      exact Nat.min_eq_right (Nat.le_of_lt hlen)
    have hne : ¬ (min words.length (0 + size) = words.length) := by
      rw [hmin]
      exact Nat.ne_of_lt hlen
    have hsub : min words.length (0 + size) - overlap = 0 := by
      rw [hmin]
      exact Nat.sub_eq_zero_of_le hov
    simp only [chunkTextLoop, if_pos h0, if_neg hne, hsub, ih]

/-- Claim C1.  The spec demands that `overlap >= size` be rejected or
clamped and that chunkText terminate on every input.  The source has no
such guard: whenever `size <= overlap` and the text holds more than
`size` words, the loop re-enters with `start = 0` forever, so no amount
of fuel completes the computation.  This refutes termination and shows
the configuration is silently looped, not rejected or clamped. -/
theorem chunkText_no_guard_diverges (words : List String)
    (size overlap fuel : Nat)
    (hov : size ≤ overlap) (hlen : size < words.length) :
    chunkText words size overlap fuel = none :=
  chunkTextLoop_diverges words size overlap hov hlen fuel

/-- Witness for C1: the concrete call chunkText "a b c" with size 1 and
overlap 1 never returns, here run with fuel 9. -/
theorem chunkText_no_guard_diverges_witness :
    chunkText ["a", "b", "c"] 1 1 9 = none ∧ (1 : Nat) ≤ 1 ∧ 1 < 3 :=
  ⟨chunkText_no_guard_diverges ["a", "b", "c"] 1 1 9 (by decide) (by decide),
    by decide, by decide⟩

lemma chunkTextLoop_isSome (words : List String) (size overlap : Nat)
    (hov : overlap < size) :
    ∀ fuel start, words.length - start < fuel →
      (chunkTextLoop words size overlap fuel start).isSome = true := by
  intro fuel
  induction fuel with
  | zero => intro start h; exact absurd h (Nat.not_lt_zero _)
  | succ n ih =>
    intro start h
    by_cases hs : start < words.length
    · simp only [chunkTextLoop, if_pos hs]
      by_cases he : min words.length (start + size) = words.length
      · simp [he]
      · have hlt : start + size < words.length := by
          rcases Nat.lt_or_ge (start + size) words.length with h1 | h1
          · exact h1
          · exact absurd (Nat.min_eq_left h1) he
        have hmin : min words.length (start + size) = start + size :=
          Nat.min_eq_right (Nat.le_of_lt hlt)
        have hstep : start + 1 ≤ start + size - overlap := by
          omega
        have hrec : words.length - (start + size - overlap) < n := by
          omega
        have := ih (start + size - overlap) hrec
        simp only [hmin, if_neg he]
        cases hres : chunkTextLoop words size overlap n (start + size - overlap) with
        | none => rw [hres] at this; simp at this
        | some rest =>
          simp only [hres]
          split <;> rfl
    · simp [chunkTextLoop, if_neg hs]

lemma chunkTextLoop_dropped (words : List String) (size overlap : Nat)
    (hov : overlap < size) :
    ∀ fuel start cs, chunkTextLoop words size overlap fuel start = some cs →
      start < words.length →
      (cs.map (List.drop overlap)).flatten = words.drop (start + overlap) := by
  intro fuel
  induction fuel with
  | zero => intro start cs h; exact absurd h (by simp [chunkTextLoop])
  | succ n ih =>
    intro start cs h hs
    simp only [chunkTextLoop, if_pos hs] at h
    by_cases he : min words.length (start + size) = words.length
    · rw [if_pos he] at h
      have hcs : cs = [(words.drop start).take (min words.length (start + size) - start)] :=
        ((Option.some.injEq _ _).mp h).symm
      have hfull : (words.drop start).take (min words.length (start + size) - start)
          = words.drop start := by
        rw [he]
        have : (words.drop start).length = words.length - start := List.length_drop _ _
        rw [← this]
        exact List.take_length _
      rw [hcs]
      simp only [List.map_cons, List.map_nil, List.flatten_cons, List.flatten_nil,
        List.append_nil]
      rw [hfull, List.drop_drop]
    · rw [if_neg he] at h
      have hlt : start + size < words.length := by
        rcases Nat.lt_or_ge (start + size) words.length with h1 | h1
        · exact h1
        · exact absurd (Nat.min_eq_left h1) he
      have hmin : min words.length (start + size) = start + size :=
        Nat.min_eq_right (Nat.le_of_lt hlt)
      rw [hmin] at h
      cases hres : chunkTextLoop words size overlap n (start + size - overlap) with
      | none => rw [hres] at h; exact absurd h (by simp)
      | some rest =>
        rw [hres] at h
        have hcs : cs = (words.drop start).take (start + size - start) :: rest := by
          exact ((Option.some.injEq _ _).mp h).symm
        have hs2 : start + size - overlap < words.length := by omega
        have ihr := ih (start + size - overlap) rest hres hs2
        have harith : start + size - overlap + overlap = start + size := by omega
        rw [harith] at ihr
        rw [hcs]
        simp only [List.map_cons, List.flatten_cons]
        have hc : ((words.drop start).take (start + size - start)).drop overlap
            = (words.drop (start + overlap)).take (size - overlap) := by
          rw [List.drop_take]
          rw [List.drop_drop]
          congr 1
          omega
        rw [hc, ihr]
        have hsplit : (words.drop (start + overlap)).take (size - overlap) ++
            (words.drop (start + overlap)).drop (size - overlap)
            = words.drop (start + overlap) := List.take_append_drop _ _
        have hdd : (words.drop (start + overlap)).drop (size - overlap)
            = words.drop (start + size) := by
          rw [List.drop_drop]
          congr 1
          omega
        rw [← hdd]
        exact hsplit

lemma chunkTextLoop_recon (words : List String) (size overlap : Nat)
    (hov : overlap < size) :
    ∀ fuel start cs, chunkTextLoop words size overlap fuel start = some cs →
      reconstructChunks overlap cs = words.drop start := by
  intro fuel start cs h
  match fuel with
  | 0 => exact absurd h (by simp [chunkTextLoop])
  | n + 1 =>
    by_cases hs : start < words.length
    · simp only [chunkTextLoop, if_pos hs] at h
      by_cases he : min words.length (start + size) = words.length
      · rw [if_pos he] at h
        have hcs : cs = [(words.drop start).take (min words.length (start + size) - start)] :=
          ((Option.some.injEq _ _).mp h).symm
        have hfull : (words.drop start).take (min words.length (start + size) - start)
            = words.drop start := by
          rw [he]
          have : (words.drop start).length = words.length - start := List.length_drop _ _
          rw [← this]
          exact List.take_length _
        rw [hcs, reconstructChunks, hfull]
        simp
      · rw [if_neg he] at h
        have hlt : start + size < words.length := by
          rcases Nat.lt_or_ge (start + size) words.length with h1 | h1
          · exact h1
          · exact absurd (Nat.min_eq_left h1) he
        have hmin : min words.length (start + size) = start + size :=
          Nat.min_eq_right (Nat.le_of_lt hlt)
        rw [hmin] at h
        cases hres : chunkTextLoop words size overlap n (start + size - overlap) with
        | none => rw [hres] at h; exact absurd h (by simp)
        | some rest =>
          rw [hres] at h
          have hcs : cs = (words.drop start).take (start + size - start) :: rest :=
            ((Option.some.injEq _ _).mp h).symm
          have hs2 : start + size - overlap < words.length := by omega
          have hdr := chunkTextLoop_dropped words size overlap hov n
            (start + size - overlap) rest hres hs2
          have harith : start + size - overlap + overlap = start + size := by omega
          rw [harith] at hdr
          rw [hcs, reconstructChunks, hdr]
          have hseg : (words.drop start).take (start + size - start) ++
              words.drop (start + size) = words.drop start := by
            have hdd : words.drop (start + size)
                = (words.drop start).drop (start + size - start) := by
              rw [List.drop_drop]
              congr 1
              omega
            rw [hdd]
            exact List.take_append_drop _ _
          exact hseg
    · simp only [chunkTextLoop, if_neg hs] at h
      have hcs : cs = [] := ((Option.some.injEq _ _).mp h).symm
      have hdrop : words.drop start = [] :=
        List.drop_eq_nil_of_le (Nat.le_of_not_lt hs)
      rw [hcs, reconstructChunks, hdrop]

lemma chunkTextLoop_chunk_bounds (words : List String) (size overlap : Nat)
    (hsz : 0 < size) :
    ∀ fuel start cs, chunkTextLoop words size overlap fuel start = some cs →
      ∀ c ∈ cs, c ≠ [] ∧ c.length ≤ size := by
  intro fuel
  induction fuel with
  | zero => intro start cs h; exact absurd h (by simp [chunkTextLoop])
  | succ n ih =>
    intro start cs h c hc
    by_cases hs : start < words.length
    · simp only [chunkTextLoop, if_pos hs] at h
      have hlen : ((words.drop start).take (min words.length (start + size) - start)).length
          = min words.length (start + size) - start := by
        rw [List.length_take, List.length_drop]
        have h1 : min words.length (start + size) - start ≤ words.length - start := by
          have := Nat.min_le_left words.length (start + size)
          omega
        exact Nat.min_eq_left h1
      have hpos : 0 < min words.length (start + size) - start := by
        have h1 : start < min words.length (start + size) :=
          lt_min hs (by omega)
        omega
      have hbnd : min words.length (start + size) - start ≤ size := by
        have := Nat.min_le_right words.length (start + size)
        omega
      by_cases he : min words.length (start + size) = words.length
      · rw [if_pos he] at h
        have hcs : cs = [(words.drop start).take (min words.length (start + size) - start)] :=
          ((Option.some.injEq _ _).mp h).symm
        rw [hcs] at hc
        simp only [List.mem_singleton] at hc
        subst hc
        constructor
        · intro hnil
          rw [hnil] at hlen
          simp at hlen
          omega
        · rw [hlen]; exact hbnd
      · rw [if_neg he] at h
        cases hres : chunkTextLoop words size overlap n
            (min words.length (start + size) - overlap) with
        | none => rw [hres] at h; exact absurd h (by simp)
        | some rest =>
          rw [hres] at h
          have hcs : cs = (words.drop start).take (min words.length (start + size) - start)
              :: rest := ((Option.some.injEq _ _).mp h).symm
          rw [hcs] at hc
          rcases List.mem_cons.mp hc with h1 | h1
          · subst h1
            constructor
            · intro hnil
              rw [hnil] at hlen
              simp at hlen
              omega
            · rw [hlen]; exact hbnd
          · exact ih _ rest hres c h1
    · simp only [chunkTextLoop, if_neg hs] at h
      have hcs : cs = [] := ((Option.some.injEq _ _).mp h).symm
      rw [hcs] at hc
      exact absurd hc (List.not_mem_nil c)

/-- Claim C9.  For overlap strictly below size, any chunk list the
chunker returns re-concatenates (with the overlapping words removed)
to exactly the original word sequence, every chunk is non-empty with
at most `size` words (in particular no empty trailing chunk), and the
chunker does terminate: fuel `words.length + 1` always suffices. -/
theorem chunkText_reconstructs (words : List String)
    (size overlap fuel : Nat) (cs : List (List String))
    (hov : overlap < size)
    (hrun : chunkText words size overlap fuel = some cs) :
    reconstructChunks overlap cs = words ∧
    cs.all (fun c => !c.isEmpty && decide (c.length ≤ size)) = true ∧
    (chunkText words size overlap (words.length + 1)).isSome = true := by
  refine ⟨?_, ?_, ?_⟩
  · have := chunkTextLoop_recon words size overlap hov fuel 0 cs hrun
    simpa using this
  · rw [List.all_eq_true]
    intro c hc
    have := chunkTextLoop_chunk_bounds words size overlap
      (Nat.lt_of_le_of_lt (Nat.zero_le _) hov) fuel 0 cs hrun c hc
    simp only [Bool.and_eq_true, Bool.not_eq_true', decide_eq_true_eq]
    constructor
    · cases c with
      | nil => exact absurd rfl this.1
      | cons a t => rfl
    · exact this.2
  · exact chunkTextLoop_isSome words size overlap hov (words.length + 1) 0 (by omega)

/-- Witness for C9 at a concrete run: six words, size 3, overlap 1. -/
theorem chunkText_reconstructs_witness :
    reconstructChunks 1
        [["w1", "w2", "w3"], ["w3", "w4", "w5"], ["w5", "w6"]]
      = ["w1", "w2", "w3", "w4", "w5", "w6"] ∧
    List.all [["w1", "w2", "w3"], ["w3", "w4", "w5"], ["w5", "w6"]]
        (fun c => !c.isEmpty && decide (c.length ≤ 3)) = true ∧
    (chunkText ["w1", "w2", "w3", "w4", "w5", "w6"] 3 1 7).isSome = true :=
  chunkText_reconstructs ["w1", "w2", "w3", "w4", "w5", "w6"] 3 1 9
    [["w1", "w2", "w3"], ["w3", "w4", "w5"], ["w5", "w6"]]
    (by decide) (by decide)

/-- Filesystem operations visible in saveIndex (src/src/llmAdapter.js lines
327-330, identical in src/src/retriever.js lines 104-107): ensureDirs does
a recursive mkdir of the index directory, then fs.writeFile opens the
index file itself with the truncating write flag and writes the JSON
serialisation.  There is no temporary file and no rename. -/
inductive FsOp where
  | mkdirIndexDir : FsOp
  | truncateIndexFile : FsOp
  | writeIndexFile (content : String) : FsOp
deriving DecidableEq, Repr

/-- Operation sequence performed by saveIndex for a serialised index
`content`: mkdir, then the open-with-truncate and the write that together
make up fs.writeFile on the index path. -/
def saveIndexOps (content : String) : List FsOp :=
  [FsOp.mkdirIndexDir, FsOp.truncateIndexFile, FsOp.writeIndexFile content]

/-- Effect of one filesystem operation on the content of the index file. -/
def applyFsOp (file : String) : FsOp → String
  | FsOp.mkdirIndexDir => file
  | FsOp.truncateIndexFile => ""
  | FsOp.writeIndexFile c => c

/-- Every index-file content a concurrent reader can observe while
saveIndex runs: the contents before, between and after the individual
operations, starting from the previously persisted content. -/
def observableDuringSave (initial content : String) : List String :=
  List.scanl applyFsOp initial (saveIndexOps content)

/-- Modelled from the spec: a save is atomic with respect to readers when
every observable intermediate content is either the complete previous
serialisation or the complete new one. -/
def saveAtomicCheck (initial content : String) : Bool :=
  (observableDuringSave initial content).all (fun s => s == initial || s == content)

/-- Counterexample for claim C2: saving the new serialisation over a
non-empty previously persisted one exposes the truncated (empty) file to
a concurrent reader, so saveIndex is not atomic with respect to readers. -/
theorem saveIndex_not_atomic_counterexample :
    saveAtomicCheck "oldIndexJson" "newIndexJson" = false ∧
    observableDuringSave "oldIndexJson" "newIndexJson"
      = ["oldIndexJson", "oldIndexJson", "", "newIndexJson"] := by
  constructor
  · rfl
  · rfl

/-- Claim C2 as amended.  saveIndex does overwrite the persisted index
wholesale (the final observable content is the new serialisation), but it
writes directly to the index file with no temp-file-then-rename step, so
whenever the old and new serialisations are both non-empty a concurrent
reader can observe the truncated intermediate file, which is neither the
previous nor the new index. -/
theorem saveIndex_direct_write_torn (initial content : String)
    (h1 : (initial == "") = false) (h2 : (content == "") = false) :
    observableDuringSave initial content = [initial, initial, "", content] ∧
    saveAtomicCheck initial content = false := by
  constructor
  · rfl
  · simp only [saveAtomicCheck, observableDuringSave, saveIndexOps, List.scanl,
      applyFsOp, List.all_cons, List.all_nil]
    have h1s : ("" == initial) = false := by
      cases hbe : ("" == initial) with
      | false => rfl
      | true =>
        have : "" = initial := eq_of_beq hbe
        rw [← this] at h1
        simp at h1
    have h2s : ("" == content) = false := by
      cases hbe : ("" == content) with
      | false => rfl
      | true =>
        have : "" = content := eq_of_beq hbe
        rw [← this] at h2
        simp at h2
    simp [h1s, h2s]

/-- Witness for the amended C2 at concrete non-empty contents. -/
theorem saveIndex_direct_write_torn_witness :
    observableDuringSave "idxA" "idxB" = ["idxA", "idxA", "", "idxB"] ∧
    saveAtomicCheck "idxA" "idxB" = false :=
  saveIndex_direct_write_torn "idxA" "idxB" (by decide) (by decide)

/-- Minimal JSON value model, standing in for what JSON.parse returns. -/
inductive Json where
  | null : Json
  | bool (b : Bool) : Json
  | num (n : Int) : Json
  | str (s : String) : Json
  | arr (xs : List Json) : Json
  | obj (fields : List (String × Json)) : Json

/-- Default index returned by loadIndex when nothing can be read or
parsed: dim 384 with an empty item list. -/
def defaultIndexJson : Json :=
  Json.obj [("dim", Json.num 384), ("items", Json.arr [])]

/-- loadIndex (src/src/llmAdapter.js lines 332-339, identical in
src/src/retriever.js lines 109-116): try to read the index file and parse
it; any failure of either step is caught and the default empty index is
returned.  The read result is `none` when fs.readFile throws (missing or
unreadable file) and the parse function models JSON.parse, returning
`none` when it throws on invalid JSON. -/
def loadIndex (readRes : Option String) (parse : String → Option Json) : Json :=
  match readRes with
  | none => defaultIndexJson
  | some raw =>
    match parse raw with
    | none => defaultIndexJson
    | some j => j

/-- Claim C10.  loadIndex is a total function of the read and parse
outcomes: a failed read yields the default empty index, a successful read
of corrupt JSON yields the default empty index, and only a successful
read of valid JSON yields the parsed value.  In particular a corrupt
persisted index behaves exactly like an empty corpus. -/
theorem loadIndex_total_default (parseA parseB : String → Option Json)
    (raw : String) (j : Json)
    (hA : parseA raw = none) (hB : parseB raw = some j) :
    loadIndex none parseA = defaultIndexJson ∧
    loadIndex (some raw) parseA = defaultIndexJson ∧
    loadIndex (some raw) parseB = j := by
  refine ⟨rfl, ?_, ?_⟩
  · simp [loadIndex, hA]
  · simp [loadIndex, hB]

/-- Witness for C10 with a concrete failing parse and a concrete
succeeding parse of the same raw text. -/
theorem loadIndex_total_default_witness :
    loadIndex none (fun _ => none) = defaultIndexJson ∧
    loadIndex (some "corrupt") (fun _ => none) = defaultIndexJson ∧
    loadIndex (some "corrupt") (fun _ => some (Json.num 7)) = Json.num 7 :=
  loadIndex_total_default (fun _ => none) (fun _ => some (Json.num 7))
    "corrupt" (Json.num 7) rfl rfl

/-- Embedded index item (src/src/llmAdapter.js buildAndSaveIndex lines
444-451): a chunk together with its embedding vector.  Vector components
are modelled as rationals. -/
structure EmbeddedItem where
  vector : List ℚ
  text : String
  sourcePath : String
  pageNumber : Option Nat
  chunkId : Nat
  tokenCount : Nat
deriving DecidableEq, Repr

/-- A search result entry: the item with its similarity score, as built
by scored = candidates.map(item => (item, score)) in searchIndex. -/
structure Scored where
  item : EmbeddedItem
  score : ℚ
deriving DecidableEq, Repr

/-- cosineSimilarity (src/src/llmAdapter.js lines 341-350, identical in
src/src/retriever.js lines 118-127).  The loop accumulates dot product
and the two squared norms over the common indices, then returns 0 when
either squared norm is 0, else dot divided by the product of the square
roots.  Math.sqrt is an external real-valued primitive and is passed in
as the function `sq`; the guard makes the zero-vector case independent of
it.  Vectors of one index share a dimension, so the zip ranges over all
indices of both vectors in the intended use. -/
def cosineSimilarity (sq : ℚ → ℚ) (a b : List ℚ) : ℚ :=
  let pairs := a.zip b
  let dot := (pairs.map (fun p => p.1 * p.2)).sum
  let na := (pairs.map (fun p => p.1 * p.1)).sum
  let nb := (pairs.map (fun p => p.2 * p.2)).sum
  if na = 0 ∨ nb = 0 then 0 else dot / (sq na * sq nb)

/-- Ordering used by scored.sort((a, b) => b.score - a.score): a comes no
later than b when its score is no smaller.  JavaScript Array sort is
stable, so the sort is the stable descending sort by score, which
insertion sort with this relation reproduces exactly. -/
def scoreGe (a b : Scored) : Prop := b.score ≤ a.score

instance : DecidableRel scoreGe :=
  fun a b => inferInstanceAs (Decidable (b.score ≤ a.score))

instance : IsTotal Scored scoreGe :=
  ⟨fun a b => le_total b.score a.score⟩

instance : IsTrans Scored scoreGe :=
  ⟨fun _ _ _ hab hbc => le_trans hbc hab⟩

/-- Candidate selection of searchIndex (src/src/llmAdapter.js lines
356-361): when a non-empty allow list is supplied, keep only items whose
resolved sourcePath is in the resolved allow set; a null or empty allow
list leaves the items unfiltered.  `resolve` models path.resolve. -/
def candidatesOf (resolve : String → String) (items : List EmbeddedItem)
    (allowedSourcePaths : Option (List String)) : List EmbeddedItem :=
  match allowedSourcePaths with
  | none => items
  | some l =>
    if l.isEmpty then items
    else items.filter (fun it => (l.map resolve).contains (resolve it.sourcePath))

/-- The scored candidate list of searchIndex before sorting. -/
def scoredOf (resolve : String → String) (sq : ℚ → ℚ) (items : List EmbeddedItem)
    (qvec : List ℚ) (allowedSourcePaths : Option (List String)) : List Scored :=
  (candidatesOf resolve items allowedSourcePaths).map
    (fun it => ⟨it, cosineSimilarity sq qvec it.vector⟩)

/-- searchIndex (src/src/llmAdapter.js lines 352-366) on an
already-loaded item list and an already-embedded query vector: empty
index gives [], an empty candidate set gives [], otherwise the scored
candidates are stable-sorted by descending score and the first
min(k, length) entries are returned. -/
def searchIndex (resolve : String → String) (sq : ℚ → ℚ) (items : List EmbeddedItem)
    (qvec : List ℚ) (k : Nat) (allowedSourcePaths : Option (List String)) : List Scored :=
  if items.isEmpty then []
  else
    let scored := scoredOf resolve sq items qvec allowedSourcePaths
    if scored.isEmpty then []
    else (List.insertionSort scoreGe scored).take (min k scored.length)

lemma filter_score_orderedInsert (q : ℚ) (x : Scored) (l : List Scored) :
    (List.orderedInsert scoreGe x l).filter (fun s => decide (s.score = q))
      = (x :: l).filter (fun s => decide (s.score = q)) := by
  induction l with
  | nil => rfl
  | cons y ys ih =>
    by_cases hr : scoreGe x y
    · have hstep : List.orderedInsert scoreGe x (y :: ys) = x :: y :: ys := by
        simp [List.orderedInsert, hr]
      rw [hstep]
    · have hstep : List.orderedInsert scoreGe x (y :: ys)
          = y :: List.orderedInsert scoreGe x ys := by
        simp [List.orderedInsert, hr]
      rw [hstep]
      have hlt : x.score < y.score := lt_of_not_le hr
      by_cases hx : x.score = q
      · have hy : ¬ (y.score = q) := by
          intro hy
          rw [hx, hy] at hlt
          exact lt_irrefl q hlt
        simp [List.filter_cons, ih, hx, hy]
      · simp [List.filter_cons, ih, hx]

lemma filter_score_insertionSort (q : ℚ) (l : List Scored) :
    (List.insertionSort scoreGe l).filter (fun s => decide (s.score = q))
      = l.filter (fun s => decide (s.score = q)) := by
  induction l with
  | nil => rfl
  | cons x xs ih =>
    show (List.orderedInsert scoreGe x (List.insertionSort scoreGe xs)).filter _ = _
    rw [filter_score_orderedInsert]
    simp [List.filter_cons, ih]

lemma filter_take_eq {α : Type} (l : List α) (n : Nat) (p : α → Bool) :
    (l.take n).filter p = (l.filter p).take ((l.take n).filter p).length := by
  have h : l.filter p = (l.take n).filter p ++ (l.drop n).filter p := by
    rw [← List.filter_append, List.take_append_drop]
  rw [h, List.take_left]

lemma cosineSimilarity_zero_left (sq : ℚ → ℚ) (a b : List ℚ)
    (ha : ∀ x ∈ a, x = 0) : cosineSimilarity sq a b = 0 := by
  simp only [cosineSimilarity]
  rw [if_pos]
  left
  apply List.sum_eq_zero
  intro y hy
  obtain ⟨p, hp, rfl⟩ := List.mem_map.mp hy
  obtain ⟨p1, p2⟩ := p
  have hmem := (List.of_mem_zip hp).1
  have hz := ha p1 hmem
  simp [hz]

lemma cosineSimilarity_zero_right (sq : ℚ → ℚ) (a b : List ℚ)
    (hb : ∀ x ∈ b, x = 0) : cosineSimilarity sq a b = 0 := by
  simp only [cosineSimilarity]
  rw [if_pos]
  right
  apply List.sum_eq_zero
  intro y hy
  obtain ⟨p, hp, rfl⟩ := List.mem_map.mp hy
  obtain ⟨p1, p2⟩ := p
  have hmem := (List.of_mem_zip hp).2
  have hz := hb p2 hmem
  simp [hz]

/-- Claim C5.  For every item list, query vector, k and allow list, the
search result is sorted by non-increasing score; entries of any fixed
score appear exactly as the leading entries, in original order, of the
equally-scored entries of the unsorted scored candidate list (stable tie
break by original index); the result length is at most
min(k, number of candidates); and cosine similarity against a zero
vector on either side is 0 without any division. -/
theorem searchIndex_ranking_spec (resolve : String → String) (sq : ℚ → ℚ)
    (items : List EmbeddedItem) (qvec : List ℚ) (k : Nat)
    (allowedSourcePaths : Option (List String)) (q : ℚ) (a b : List ℚ)
    (ha : a.all (fun x => decide (x = 0)) = true) :
    List.Sorted scoreGe (searchIndex resolve sq items qvec k allowedSourcePaths) ∧
    (searchIndex resolve sq items qvec k allowedSourcePaths).filter
        (fun s => decide (s.score = q))
      = ((scoredOf resolve sq items qvec allowedSourcePaths).filter
          (fun s => decide (s.score = q))).take
          (((searchIndex resolve sq items qvec k allowedSourcePaths).filter
            (fun s => decide (s.score = q))).length) ∧
    (searchIndex resolve sq items qvec k allowedSourcePaths).length
      ≤ min k (candidatesOf resolve items allowedSourcePaths).length ∧
    cosineSimilarity sq a b = 0 ∧ cosineSimilarity sq b a = 0 := by
  have haz : ∀ x ∈ a, x = 0 := by
    intro x hx
    have := List.all_eq_true.mp ha x hx
    exact of_decide_eq_true this
  refine ⟨?_, ?_, ?_, cosineSimilarity_zero_left sq a b haz,
    cosineSimilarity_zero_right sq b a haz⟩
  · rcases eq_or_ne items [] with h1 | h1
    · simp [searchIndex, h1, List.Sorted]
    · rcases eq_or_ne (scoredOf resolve sq items qvec allowedSourcePaths) [] with h2 | h2
      · simp [searchIndex, h1, h2, List.Sorted]
      · simp only [searchIndex, List.isEmpty_eq_true]
        rw [if_neg h1, if_neg h2]
        exact List.Pairwise.sublist (List.take_sublist _ _)
          (List.sorted_insertionSort scoreGe _)
  · rcases eq_or_ne items [] with h1 | h1
    · simp [searchIndex, h1]
    · rcases eq_or_ne (scoredOf resolve sq items qvec allowedSourcePaths) [] with h2 | h2
      · simp [searchIndex, h1, h2]
      · simp only [searchIndex, List.isEmpty_eq_true]
        rw [if_neg h1, if_neg h2]
        rw [filter_take_eq]
        rw [filter_score_insertionSort]
        rw [List.length_take]
        exact List.take_eq_take.mpr (by omega)
  · rcases eq_or_ne items [] with h1 | h1
    · simp [searchIndex, h1]
    · rcases eq_or_ne (scoredOf resolve sq items qvec allowedSourcePaths) [] with h2 | h2
      · simp [searchIndex, h1, h2]
      · simp only [searchIndex, List.isEmpty_eq_true]
        rw [if_neg h1, if_neg h2]
        rw [List.length_take]
        have hperm : (List.insertionSort scoreGe
            (scoredOf resolve sq items qvec allowedSourcePaths)).length
            = (scoredOf resolve sq items qvec allowedSourcePaths).length :=
          (List.perm_insertionSort scoreGe _).length_eq
        have hsl : (scoredOf resolve sq items qvec allowedSourcePaths).length
            = (candidatesOf resolve items allowedSourcePaths).length :=
          List.length_map _ _
        rw [hperm, hsl]
        omega

/-- Witness for C5 at a concrete search: two items, one query vector,
k = 1, no allow list, score level 1, and the zero vector on one side. -/
theorem searchIndex_ranking_spec_witness :
    List.Sorted scoreGe (searchIndex id id
        [⟨[1, 0], "tA", "a.txt", none, 0, 1⟩, ⟨[0, 1], "tB", "b.txt", none, 1, 1⟩]
        [1, 0] 1 none) ∧
    (searchIndex id id
        [⟨[1, 0], "tA", "a.txt", none, 0, 1⟩, ⟨[0, 1], "tB", "b.txt", none, 1, 1⟩]
        [1, 0] 1 none).filter (fun s => decide (s.score = 1))
      = ((scoredOf id id
          [⟨[1, 0], "tA", "a.txt", none, 0, 1⟩, ⟨[0, 1], "tB", "b.txt", none, 1, 1⟩]
          [1, 0] none).filter (fun s => decide (s.score = 1))).take
          (((searchIndex id id
            [⟨[1, 0], "tA", "a.txt", none, 0, 1⟩, ⟨[0, 1], "tB", "b.txt", none, 1, 1⟩]
            [1, 0] 1 none).filter (fun s => decide (s.score = 1))).length) ∧
    (searchIndex id id
        [⟨[1, 0], "tA", "a.txt", none, 0, 1⟩, ⟨[0, 1], "tB", "b.txt", none, 1, 1⟩]
        [1, 0] 1 none).length
      ≤ min 1 (candidatesOf id
          [⟨[1, 0], "tA", "a.txt", none, 0, 1⟩, ⟨[0, 1], "tB", "b.txt", none, 1, 1⟩]
          none).length ∧
    cosineSimilarity id [0, 0] [1, 2] = 0 ∧ cosineSimilarity id [1, 2] [0, 0] = 0 :=
  searchIndex_ranking_spec id id
    [⟨[1, 0], "tA", "a.txt", none, 0, 1⟩, ⟨[0, 1], "tB", "b.txt", none, 1, 1⟩]
    [1, 0] 1 none 1 [0, 0] [1, 2] (by decide)

/-- Claim C4.  With a non-empty allow list, every returned entry has a
resolved sourcePath inside the resolved allow set, and an item list
containing no allowed item yields the empty result, never an unfiltered
fallback. -/
theorem searchIndex_allowlist_filters (resolve : String → String) (sq : ℚ → ℚ)
    (items itemsNoMatch : List EmbeddedItem) (qvec : List ℚ) (k : Nat)
    (allowed : List String) (hne : allowed ≠ [])
    (hmatch : itemsNoMatch.filter
        (fun it => (allowed.map resolve).contains (resolve it.sourcePath)) = []) :
    (searchIndex resolve sq items qvec k (some allowed)).all
        (fun s => (allowed.map resolve).contains (resolve s.item.sourcePath)) = true ∧
    searchIndex resolve sq itemsNoMatch qvec k (some allowed) = [] := by
  have hemp : allowed.isEmpty = false := by
    cases allowed with
    | nil => exact absurd rfl hne
    | cons x xs => rfl
  constructor
  · rw [List.all_eq_true]
    intro s hs
    rcases eq_or_ne items [] with h1 | h1
    · rw [h1] at hs
      simp [searchIndex] at hs
    · rcases eq_or_ne (scoredOf resolve sq items qvec (some allowed)) [] with h2 | h2
      · simp only [searchIndex, List.isEmpty_eq_true] at hs
        rw [if_neg h1, if_pos h2] at hs
        exact absurd hs (List.not_mem_nil s)
      · simp only [searchIndex, List.isEmpty_eq_true] at hs
        rw [if_neg h1, if_neg h2] at hs
        have hs2 : s ∈ List.insertionSort scoreGe
            (scoredOf resolve sq items qvec (some allowed)) :=
          (List.take_sublist _ _).mem hs
        have hs3 : s ∈ scoredOf resolve sq items qvec (some allowed) :=
          (List.perm_insertionSort scoreGe _).mem_iff.mp hs2
        obtain ⟨it, hit, rfl⟩ := List.mem_map.mp hs3
        have hcand : it ∈ candidatesOf resolve items (some allowed) := hit
        simp only [candidatesOf, hemp, Bool.false_eq_true, if_false] at hcand
        simpa using List.of_mem_filter hcand
  · rcases eq_or_ne itemsNoMatch [] with h1 | h1
    · rw [h1]
      simp [searchIndex]
    · have hcand : candidatesOf resolve itemsNoMatch (some allowed) = [] := by
        simp only [candidatesOf, hemp, Bool.false_eq_true, if_false]
        exact hmatch
      have hsc : scoredOf resolve sq itemsNoMatch qvec (some allowed) = [] := by
        rw [scoredOf, hcand]
        rfl
      simp only [searchIndex, List.isEmpty_eq_true]
      rw [if_neg h1, if_pos hsc]

/-- Witness for C4: one item inside the allow list, one item list with no
match at all. -/
theorem searchIndex_allowlist_filters_witness :
    (searchIndex id id [⟨[1], "tA", "a.txt", none, 0, 1⟩] [1] 3 (some ["a.txt"])).all
        (fun s => (["a.txt"].map id).contains (id s.item.sourcePath)) = true ∧
    searchIndex id id [⟨[1], "tB", "b.txt", none, 0, 1⟩] [1] 3 (some ["a.txt"]) = [] :=
  searchIndex_allowlist_filters id id
    [⟨[1], "tA", "a.txt", none, 0, 1⟩] [⟨[1], "tB", "b.txt", none, 0, 1⟩]
    [1] 3 ["a.txt"] (by decide) (by decide)

/-- Stages of the ingestion progress machine (src/src/server.js line 89
and the stage strings assigned in lines 93-133). -/
inductive Stage where
  | idle : Stage
  | scanning : Stage
  | chunking : Stage
  | embedding : Stage
  | done : Stage
  | error : Stage
deriving DecidableEq, Repr

/-- The shared ingestProgress value (src/src/server.js line 89). -/
structure Progress where
  stage : Stage
  processed : Nat
  total : Nat
  errMsg : Option String
deriving DecidableEq, Repr

/-- A stage from which no ingestion run is active. -/
def isTerminalStage : Stage → Bool
  | Stage.idle => true
  | Stage.done => true
  | Stage.error => true
  | _ => false

/-- Synchronous part of the POST /api/ingest/start handler
(src/src/server.js lines 90-94): regardless of the current progress
value, it overwrites the shared state with stage scanning and responds
with success true.  No inspection of the previous stage occurs. -/
def handleIngestStart (_prev : Progress) : Progress × Bool :=
  (⟨Stage.scanning, 0, 0, none⟩, true)

/-- Counterexample for claim C3: with an ingestion run mid-flight (stage
embedding, a non-terminal stage), a new start call is answered with
success and the shared progress is reset to scanning; it is not rejected
and the previous state is not preserved. -/
theorem ingestStart_accepts_while_running_counterexample :
    isTerminalStage (Progress.mk Stage.embedding 3 10 none).stage = false ∧
    handleIngestStart ⟨Stage.embedding, 3, 10, none⟩
      = (⟨Stage.scanning, 0, 0, none⟩, true) ∧
    (handleIngestStart ⟨Stage.embedding, 3, 10, none⟩).1
      ≠ ⟨Stage.embedding, 3, 10, none⟩ := by
  refine ⟨rfl, rfl, ?_⟩
  intro h
  exact absurd (congrArg Progress.stage h) (by decide)

/-- Claim C3 as amended.  The handler accepts every start call and
unconditionally resets the shared progress to the scanning state,
whatever the current stage: the spec-mandated rejection of a start while
a run is active is not implemented, so the defined race is accepted. -/
theorem ingestStart_always_resets (p : Progress) :
    handleIngestStart p = (⟨Stage.scanning, 0, 0, none⟩, true) :=
  rfl

/-- Witness for the amended C3 at a concrete mid-run state. -/
theorem ingestStart_always_resets_witness :
    handleIngestStart ⟨Stage.chunking, 7, 9, none⟩
      = (⟨Stage.scanning, 0, 0, none⟩, true) :=
  ingestStart_always_resets ⟨Stage.chunking, 7, 9, none⟩

/-- A chunk before embedding (src/src/llmAdapter.js buildCorpusChunks
lines 380-386 and 400-406). -/
structure Chunk where
  text : String
  sourcePath : String
  pageNumber : Option Nat
  chunkId : Nat
  tokenCount : Nat
deriving DecidableEq, Repr

/-- The persisted index value (storage/index.json content). -/
structure Index where
  dim : Nat
  items : List EmbeddedItem
deriving DecidableEq, Repr

/-- Outcomes of the external steps of one ingestion run, used to drive
the job model: the chunk-count estimate, corpus chunking, embedding of
the chunk texts, and the final file write; the String of an error value
is the human-readable String(err) recorded by the catch handler. -/
structure IngestEnv where
  estimateRes : Except String Nat
  chunksRes : Except String (List Chunk)
  embedRes : Except String (List (List ℚ))
  saveRes : Except String Unit

/-- True when an Except value is a success. -/
def exceptOk {α : Type} : Except String α → Bool
  | Except.ok _ => true
  | Except.error _ => false

/-- Items assembled after embedding (src/src/server.js lines 117-125):
dim is the length of the first embedding (384 when there are none) and a
missing embedding falls back to the zero vector of that dimension. -/
def builtItems (chunks : List Chunk) (embeds : List (List ℚ)) : List EmbeddedItem :=
  let dim := match embeds with
    | [] => 384
    | e :: _ => e.length
  chunks.mapIdx (fun i c =>
    ⟨embeds.getD i (List.replicate dim 0), c.text, c.sourcePath,
      c.pageNumber, c.chunkId, c.tokenCount⟩)

/-- The complete index the job persists on success. -/
def builtIndex (chunks : List Chunk) (embeds : List (List ℚ)) : Index :=
  ⟨(match embeds with
    | [] => 384
    | e :: _ => e.length), builtItems chunks embeds⟩

/-- The detached ingestion job of POST /api/ingest/start
(src/src/server.js lines 96-131) as a function from the step outcomes and
the previously persisted index to the final progress value and the
persisted index after the run.  A failing estimate is swallowed by its
own try/catch (total falls back to 0, line 103); a throw from chunking,
embedding or the save lands in the outer catch, which records stage
error with the String of the error, and the save - the only write to the
store - runs strictly after every chunk is embedded. -/
def runIngestJob (env : IngestEnv) (store : Index) : Progress × Index :=
  let _total := match env.estimateRes with
    | Except.ok n => n
    | Except.error _ => 0
  match env.chunksRes with
  | Except.error e => (⟨Stage.error, 0, 0, some e⟩, store)
  | Except.ok chunks =>
    match env.embedRes with
    | Except.error e => (⟨Stage.error, 0, 0, some e⟩, store)
    | Except.ok embeds =>
      match env.saveRes with
      | Except.error e => (⟨Stage.error, 0, 0, some e⟩, store)
      | Except.ok _ =>
        let idx := builtIndex chunks embeds
        (⟨Stage.done, idx.items.length, idx.items.length, none⟩, idx)

/-- Claim C7.  Whenever the first failing step of an ingestion run is the
chunking, the embedding or the persist step and it throws with message
e, the job ends with progress stage error carrying that message and the
persisted index still holds its prior value: the store is only ever
replaced by the complete index built after all chunks are embedded. -/
theorem ingestJob_error_preserves_store (env : IngestEnv) (store : Index)
    (e : String)
    (hfail : env.chunksRes = Except.error e
      ∨ (exceptOk env.chunksRes = true ∧ env.embedRes = Except.error e)
      ∨ (exceptOk env.chunksRes = true ∧ exceptOk env.embedRes = true ∧
          env.saveRes = Except.error e)) :
    runIngestJob env store = (⟨Stage.error, 0, 0, some e⟩, store) := by
  rcases hfail with h | ⟨h1, h2⟩ | ⟨h1, h2, h3⟩
  · simp [runIngestJob, h]
  · cases hc : env.chunksRes with
    | error e2 => rw [hc] at h1; exact absurd h1 (by simp [exceptOk])
    | ok chunks => simp [runIngestJob, hc, h2]
  · cases hc : env.chunksRes with
    | error e2 => rw [hc] at h1; exact absurd h1 (by simp [exceptOk])
    | ok chunks =>
      cases he : env.embedRes with
      | error e2 => rw [he] at h2; exact absurd h2 (by simp [exceptOk])
      | ok embeds => simp [runIngestJob, hc, he, h3]

/-- Witness for C7: a run whose embedding step throws leaves the store
untouched and reports the error text via the progress state. -/
theorem ingestJob_error_preserves_store_witness :
    runIngestJob
        ⟨Except.ok 2, Except.ok [⟨"t", "a.txt", none, 0, 1⟩],
          Except.error "embed boom", Except.ok ()⟩
        ⟨384, []⟩
      = (⟨Stage.error, 0, 0, some "embed boom"⟩, ⟨384, []⟩) :=
  ingestJob_error_preserves_store
    ⟨Except.ok 2, Except.ok [⟨"t", "a.txt", none, 0, 1⟩],
      Except.error "embed boom", Except.ok ()⟩
    ⟨384, []⟩ "embed boom" (Or.inr (Or.inl ⟨rfl, rfl⟩))

/-- A sanitized conversation message. -/
structure Message where
  role : String
  content : String
deriving DecidableEq, Repr

/-- A raw client-supplied history entry: either not an object at all, or
an object with a role (String(m.role or empty) in the source) and a
content that is a string or something else (modelled as none). -/
inductive RawEntry where
  | invalid : RawEntry
  | msg (role : String) (content : Option String) : RawEntry
deriving DecidableEq, Repr

/-- Per-entry validation of sanitizeHistory (src/src/server.js lines
534-540): non-objects are skipped, the role is lowercased and must be
user or assistant, non-string content becomes the empty string, and
empty content is skipped. -/
def cleanEntry : RawEntry → Option Message
  | RawEntry.invalid => none
  | RawEntry.msg role content =>
    let role2 := role.toLower
    let content2 := content.getD ""
    if (role2 == "user" || role2 == "assistant") && !(content2 == "") then
      some ⟨role2, content2⟩
    else none

/-- The cleaned list built by the validation loop. -/
def cleanedOf (raw : List RawEntry) : List Message :=
  raw.filterMap cleanEntry

/-- cleaned.slice(-HISTORY_MAX_MESSAGES) (src/src/server.js line 542):
the last maxMessages entries.  JavaScript slice with argument -0 returns
the whole list, which the zero case mirrors. -/
def trimmedOf (raw : List RawEntry) (maxMessages : Nat) : List Message :=
  let c := cleanedOf raw
  if maxMessages = 0 then c else c.drop (c.length - maxMessages)

/-- Character cost of one message in the budget walk
(src/src/server.js line 548): content length plus a fixed overhead
of 20. -/
def msgCost (m : Message) : Nat := m.content.length + 20

/-- The budget walk (src/src/server.js lines 544-552) expressed on the
reversed trimmed list: starting from the newest message, keep messages
while the running total stays within the budget and stop at the first
message that would exceed it. -/
def takeWhileBudget (budget : Nat) : Nat → List Message → List Message
  | _, [] => []
  | total, m :: rest =>
    if budget < total + msgCost m then []
    else m :: takeWhileBudget budget (total + msgCost m) rest

/-- sanitizeHistory (src/src/server.js lines 530-554): validate, trim to
the last maxMessages entries, walk backwards under the character budget
(the source pushes into `result` newest first and reverses at the end,
which is the reverse of the budget walk on the reversed list). -/
def sanitizeHistory (raw : List RawEntry) (maxMessages budget : Nat) : List Message :=
  (takeWhileBudget budget 0 (trimmedOf raw maxMessages).reverse).reverse

/-- Total character cost of a kept message list. -/
def suffixCost (l : List Message) : Nat := (l.map msgCost).sum

/-- The last n entries of a list. -/
def lastN (l : List Message) (n : Nat) : List Message := l.drop (l.length - n)

/-- Modelled from the spec: the largest number of trailing messages
whose total cost fits the budget. -/
def bestKeep (l : List Message) (budget : Nat) : Nat :=
  ((List.range (l.length + 1)).filter
    (fun n => decide (suffixCost (lastN l n) ≤ budget))).foldr Nat.max 0

/-- Modelled from the spec: the longest suffix of the trimmed list whose
total cost fits the budget, in original chronological order. -/
def specLongestSuffix (l : List Message) (budget : Nat) : List Message :=
  lastN l (bestKeep l budget)

lemma takeWhileBudget_self_take (budget : Nat) :
    ∀ (xs : List Message) (t : Nat),
      xs.take (takeWhileBudget budget t xs).length = takeWhileBudget budget t xs := by
  intro xs
  induction xs with
  | nil => intro t; rfl
  | cons m rest ih =>
    intro t
    rw [takeWhileBudget]
    by_cases hb : budget < t + msgCost m
    · rw [if_pos hb]
      rfl
    · rw [if_neg hb]
      simp only [List.length_cons, List.take_succ_cons]
      rw [ih (t + msgCost m)]

lemma takeWhileBudget_cost (budget : Nat) :
    ∀ (xs : List Message) (t : Nat), t ≤ budget →
      t + suffixCost (takeWhileBudget budget t xs) ≤ budget := by
  intro xs
  induction xs with
  | nil => intro t ht; simpa [takeWhileBudget, suffixCost] using ht
  | cons m rest ih =>
    intro t ht
    rw [takeWhileBudget]
    by_cases hb : budget < t + msgCost m
    · rw [if_pos hb]
      simpa [suffixCost] using ht
    · rw [if_neg hb]
      have := ih (t + msgCost m) (Nat.le_of_not_lt hb)
      simp only [suffixCost, List.map_cons, List.sum_cons] at this ⊢
      omega

lemma takeWhileBudget_maximal (budget : Nat) :
    ∀ (xs : List Message) (k t : Nat), k ≤ xs.length →
      t + suffixCost (xs.take k) ≤ budget →
      k ≤ (takeWhileBudget budget t xs).length := by
  intro xs
  induction xs with
  | nil =>
    intro k t hk _
    have hk0 : k = 0 := by simpa using hk
    subst hk0
    exact Nat.zero_le _
  | cons m rest ih =>
    intro k t hk hcost
    cases k with
    | zero => exact Nat.zero_le _
    | succ k2 =>
      simp only [List.take_succ_cons, suffixCost, List.map_cons, List.sum_cons] at hcost
      have hb : ¬ (budget < t + msgCost m) := by omega
      rw [takeWhileBudget, if_neg hb]
      simp only [List.length_cons]
      have hk2 : k2 ≤ rest.length := by
        simpa using hk
      have hc2 : t + msgCost m + suffixCost (rest.take k2) ≤ budget := by
        simp only [suffixCost]
        omega
      have := ih k2 (t + msgCost m) hk2 hc2
      omega

lemma foldr_max_le (L : List Nat) (a : Nat) (h : ∀ x ∈ L, x ≤ a) :
    L.foldr Nat.max 0 ≤ a := by
  induction L with
  | nil => exact Nat.zero_le _
  | cons x rest ih =>
    simp only [List.foldr_cons]
    have hx := h x (List.mem_cons_self x rest)
    have hr := ih (fun y hy => h y (List.mem_cons_of_mem x hy))
    exact Nat.max_le.mpr ⟨hx, hr⟩

lemma le_foldr_max (L : List Nat) (a : Nat) (h : a ∈ L) :
    a ≤ L.foldr Nat.max 0 := by
  induction L with
  | nil => exact absurd h (List.not_mem_nil a)
  | cons x rest ih =>
    simp only [List.foldr_cons]
    rcases List.mem_cons.mp h with h1 | h1
    · subst h1
      exact Nat.le_max_left _ _
    · exact le_trans (ih h1) (Nat.le_max_right _ _)

lemma lastN_eq_reverse_take (l : List Message) (n : Nat) :
    lastN l n = (l.reverse.take n).reverse := by
  have h := List.rtake_eq_reverse_take_reverse (l := l) (n := n)
  simpa [List.rtake, lastN] using h

lemma suffixCost_reverse (l : List Message) :
    suffixCost l.reverse = suffixCost l := by
  simp [suffixCost, List.map_reverse, List.sum_reverse]

lemma budgetWalk_eq_specLongestSuffix (l : List Message) (budget : Nat) :
    (takeWhileBudget budget 0 l.reverse).reverse = specLongestSuffix l budget := by
  have hpre := takeWhileBudget_self_take budget l.reverse 0
  have hlenle : (takeWhileBudget budget 0 l.reverse).length ≤ l.length := by
    have := congrArg List.length hpre
    rw [List.length_take, List.length_reverse] at this
    omega
  have hvalid : suffixCost (lastN l (takeWhileBudget budget 0 l.reverse).length) ≤ budget := by
    rw [lastN_eq_reverse_take, hpre, suffixCost_reverse]
    have := takeWhileBudget_cost budget l.reverse 0 (Nat.zero_le _)
    omega
  have hbest : bestKeep l budget = (takeWhileBudget budget 0 l.reverse).length := by
    apply Nat.le_antisymm
    · apply foldr_max_le
      intro n hn
      have hn2 := List.mem_filter.mp hn
      have hrange : n ≤ l.length := by
        have := List.mem_range.mp hn2.1
        omega
      have hcost : suffixCost (lastN l n) ≤ budget := of_decide_eq_true hn2.2
      rw [lastN_eq_reverse_take, suffixCost_reverse] at hcost
      exact takeWhileBudget_maximal budget l.reverse n 0
        (by rw [List.length_reverse]; exact hrange) (by omega)
    · apply le_foldr_max
      rw [List.mem_filter]
      constructor
      · exact List.mem_range.mpr (by omega)
      · exact decide_eq_true hvalid
  rw [specLongestSuffix, hbest, lastN_eq_reverse_take, hpre]

/-- Claim C6.  For a positive message cap, sanitizeHistory returns
exactly the longest suffix, within the character budget, of the last
maxMessages surviving entries, in original chronological order; the
result never exceeds the cap; and every kept message has role user or
assistant with non-empty string content. -/
theorem sanitizeHistory_longest_suffix (raw : List RawEntry)
    (maxMessages budget : Nat) (hpos : 0 < maxMessages) :
    sanitizeHistory raw maxMessages budget
      = specLongestSuffix (trimmedOf raw maxMessages) budget ∧
    (trimmedOf raw maxMessages).length ≤ maxMessages ∧
    (sanitizeHistory raw maxMessages budget).length ≤ maxMessages ∧
    (sanitizeHistory raw maxMessages budget).all
        (fun m => (m.role == "user" || m.role == "assistant")
          && !(m.content == "")) = true := by
  have hne : maxMessages ≠ 0 := Nat.pos_iff_ne_zero.mp hpos
  have h1 : sanitizeHistory raw maxMessages budget
      = specLongestSuffix (trimmedOf raw maxMessages) budget :=
    budgetWalk_eq_specLongestSuffix (trimmedOf raw maxMessages) budget
  have htr : (trimmedOf raw maxMessages).length ≤ maxMessages := by
    simp only [trimmedOf, if_neg hne]
    rw [List.length_drop]
    omega
  refine ⟨h1, htr, ?_, ?_⟩
  · rw [h1]
    simp only [specLongestSuffix, lastN, List.length_drop]
    omega
  · rw [List.all_eq_true]
    intro m hm
    rw [h1] at hm
    simp only [specLongestSuffix, lastN] at hm
    have hmt : m ∈ trimmedOf raw maxMessages := List.mem_of_mem_drop hm
    simp only [trimmedOf, if_neg hne] at hmt
    have hmc : m ∈ cleanedOf raw := List.mem_of_mem_drop hmt
    obtain ⟨entry, _, hsome⟩ := List.mem_filterMap.mp hmc
    cases entry with
    | invalid => exact absurd hsome (by simp [cleanEntry])
    | msg role content =>
      simp only [cleanEntry] at hsome
      by_cases hcond : ((role.toLower == "user" || role.toLower == "assistant")
          && !(content.getD "" == "")) = true
      · rw [if_pos hcond] at hsome
        have hm2 : m = ⟨role.toLower, content.getD ""⟩ :=
          ((Option.some.injEq _ _).mp hsome).symm
        rw [hm2]
        exact hcond
      · rw [if_neg hcond] at hsome
        exact absurd hsome (by simp)

/-- Sample raw history of ten entries for the C6 witness, containing an
entry that is not an object, a disallowed role, a non-string content and
an empty content alongside six valid messages. -/
def rawSample : List RawEntry :=
  [RawEntry.msg "user" (some "m1"), RawEntry.msg "User" (some "m2"),
    RawEntry.invalid, RawEntry.msg "system" (some "m3"),
    RawEntry.msg "assistant" none, RawEntry.msg "assistant" (some ""),
    RawEntry.msg "assistant" (some "m4"), RawEntry.msg "user" (some "m5"),
    RawEntry.msg "assistant" (some "m6"), RawEntry.msg "user" (some "m7")]

/-- Witness for C6: the ten-message sample under cap 3 and budget 1000,
matching the scenario given in the spec. -/
theorem sanitizeHistory_longest_suffix_witness :
    sanitizeHistory rawSample 3 1000
      = specLongestSuffix (trimmedOf rawSample 3) 1000 ∧
    (trimmedOf rawSample 3).length ≤ 3 ∧
    (sanitizeHistory rawSample 3 1000).length ≤ 3 ∧
    (sanitizeHistory rawSample 3 1000).all
        (fun m => (m.role == "user" || m.role == "assistant")
          && !(m.content == "")) = true :=
  sanitizeHistory_longest_suffix rawSample 3 1000 (by decide)

/-- Events delivered by the upstream completion stream to the onDelta
callback (llmChatCompleteStream in src/src/llmAdapter.js). -/
inductive ModelEvt where
  | delta (text : String) : ModelEvt
  | done : ModelEvt
  | error (msg : String) : ModelEvt
deriving DecidableEq, Repr

/-- Server-sent events written to the client by the chat stream
handlers: the initial status event, content deltas, flush markers, the
terminal done and error events. -/
inductive SseEvt where
  | status : SseEvt
  | sdelta (text : String) : SseEvt
  | flush : SseEvt
  | sdone : SseEvt
  | serror (msg : String) : SseEvt
deriving DecidableEq, Repr

/-- True exactly on content (delta) events. -/
def isDeltaEvt : SseEvt → Bool
  | SseEvt.sdelta _ => true
  | _ => false

/-- onDelta handler of the current POST /api/chat/stream snapshot
(src/src/server.js lines 746-755): each delta is forwarded, done
forwards a done event, error an error event.  The local accumulator of
line 737 is written but never read, so it is omitted.  No empty delta
and no flush logic exist in this snapshot. -/
def relayCurrentGo : List ModelEvt → List SseEvt
  | [] => []
  | ModelEvt.delta t :: rest => SseEvt.sdelta t :: relayCurrentGo rest
  | ModelEvt.done :: rest => SseEvt.sdone :: relayCurrentGo rest
  | ModelEvt.error e :: rest => SseEvt.serror e :: relayCurrentGo rest

/-- Current stream handler output: the initial status event (line 728)
followed by the forwarded events. -/
def relayCurrent (evts : List ModelEvt) : List SseEvt :=
  SseEvt.status :: relayCurrentGo evts

/-- onDelta handler of the earlier POST /api/chat/stream snapshot
(src/src/server.js lines 1202-1225): a delta is forwarded and marks
hasEmittedDelta, then the accumulated text is tested by the flush
condition (length threshold, sentence boundary, not inside a code fence,
lines 1208-1213, abstracted here as flushCond) and on success a flush
event is emitted and the accumulator reset; done first emits one empty
delta when no delta was ever emitted, then the done event; error is
forwarded. -/
def relayEarlierGo (flushCond : String → Bool) :
    String → Bool → List ModelEvt → List SseEvt
  | _, _, [] => []
  | acc, _, ModelEvt.delta t :: rest =>
    if flushCond (acc ++ t) then
      SseEvt.sdelta t :: SseEvt.flush :: relayEarlierGo flushCond "" true rest
    else
      SseEvt.sdelta t :: relayEarlierGo flushCond (acc ++ t) true rest
  | acc, hasEmitted, ModelEvt.done :: rest =>
    (if hasEmitted then [SseEvt.sdone] else [SseEvt.sdelta "", SseEvt.sdone])
      ++ relayEarlierGo flushCond acc hasEmitted rest
  | acc, hasEmitted, ModelEvt.error e :: rest =>
    SseEvt.serror e :: relayEarlierGo flushCond acc hasEmitted rest

/-- Earlier stream handler output: the initial status event followed by
the folded events, starting with an empty accumulator and no delta
emitted yet. -/
def relayEarlier (flushCond : String → Bool) (evts : List ModelEvt) : List SseEvt :=
  SseEvt.status :: relayEarlierGo flushCond "" false evts

lemma relayEarlierGo_split (flushCond : String → Bool) :
    ∀ (texts : List String) (acc : String) (he : Bool),
      ∃ pre, relayEarlierGo flushCond acc he
          (texts.map ModelEvt.delta ++ [ModelEvt.done])
        = pre ++ [SseEvt.sdone] ∧ (he = false → 0 < pre.countP isDeltaEvt) := by
  intro texts
  induction texts with
  | nil =>
    intro acc he
    cases he with
    | false =>
      refine ⟨[SseEvt.sdelta ""], ?_, ?_⟩
      · rfl
      · intro _; decide
    | true =>
      refine ⟨[], rfl, ?_⟩
      intro h; exact absurd h (by decide)
  | cons t ts ih =>
    intro acc he
    by_cases hf : flushCond (acc ++ t)
    · obtain ⟨pre2, hpre2, _⟩ := ih "" true
      refine ⟨SseEvt.sdelta t :: SseEvt.flush :: pre2, ?_, ?_⟩
      · simp only [List.map_cons, List.cons_append, relayEarlierGo, if_pos hf, List.append_eq, hpre2]
      · intro _
        simp [List.countP_cons, isDeltaEvt]
    · obtain ⟨pre2, hpre2, _⟩ := ih (acc ++ t) true
      refine ⟨SseEvt.sdelta t :: pre2, ?_, ?_⟩
      · simp only [List.map_cons, List.cons_append, relayEarlierGo, if_neg hf, List.append_eq, hpre2]
      · intro _
        simp [List.countP_cons, isDeltaEvt]

lemma relayCurrentGo_split :
    ∀ (texts : List String),
      ∃ pre, relayCurrentGo (texts.map ModelEvt.delta ++ [ModelEvt.done])
        = pre ++ [SseEvt.sdone] := by
  intro texts
  induction texts with
  | nil => exact ⟨[], rfl⟩
  | cons t ts ih =>
    obtain ⟨pre2, hpre2⟩ := ih
    exact ⟨SseEvt.sdelta t :: pre2, by
      simp only [List.map_cons, List.cons_append, relayCurrentGo, List.append_eq, hpre2]⟩

/-- Counterexample for claim C8: the current stream handler, given a
completed model stream with zero content deltas, emits only the status
and done events and no delta event at all, so downstream consumers do
not observe a content event. -/
theorem relayCurrent_no_empty_delta_counterexample :
    relayCurrent [ModelEvt.done] = [SseEvt.status, SseEvt.sdone] ∧
    (relayCurrent [ModelEvt.done]).countP isDeltaEvt = 0 := by
  exact ⟨rfl, rfl⟩

/-- Claim C8 as amended.  For every completed model stream, the earlier
snapshot handler ends its output with the terminal done event and always
contains at least one content event, emitting exactly one empty delta
before done when the stream had no deltas; the current snapshot handler
still always ends with the terminal done event, but without the empty
delta. -/
theorem relay_done_and_empty_delta (flushCond : String → Bool)
    (texts : List String) :
    (relayEarlier flushCond (texts.map ModelEvt.delta ++ [ModelEvt.done])).getLast?
      = some SseEvt.sdone ∧
    0 < (relayEarlier flushCond
        (texts.map ModelEvt.delta ++ [ModelEvt.done])).countP isDeltaEvt ∧
    relayEarlier flushCond [ModelEvt.done]
      = [SseEvt.status, SseEvt.sdelta "", SseEvt.sdone] ∧
    (relayCurrent (texts.map ModelEvt.delta ++ [ModelEvt.done])).getLast?
      = some SseEvt.sdone := by
  obtain ⟨pre, hpre, hcount⟩ := relayEarlierGo_split flushCond texts "" false
  refine ⟨?_, ?_, rfl, ?_⟩
  · rw [relayEarlier, hpre]
    rw [show SseEvt.status :: (pre ++ [SseEvt.sdone])
      = (SseEvt.status :: pre) ++ [SseEvt.sdone] from rfl]
    exact List.getLast?_concat _
  · rw [relayEarlier, hpre]
    have h0 := hcount rfl
    simp only [List.countP_cons, List.countP_append, isDeltaEvt]
    omega
  · obtain ⟨pre2, hpre2⟩ := relayCurrentGo_split texts
    rw [relayCurrent, hpre2]
    rw [show SseEvt.status :: (pre2 ++ [SseEvt.sdone])
      = (SseEvt.status :: pre2) ++ [SseEvt.sdone] from rfl]
    exact List.getLast?_concat _

/-- Witness for the amended C8 at a concrete stream of one delta,
with a flush condition that never fires. -/
theorem relay_done_and_empty_delta_witness :
    (relayEarlier (fun _ => false)
        (["hello"].map ModelEvt.delta ++ [ModelEvt.done])).getLast?
      = some SseEvt.sdone ∧
    0 < (relayEarlier (fun _ => false)
        (["hello"].map ModelEvt.delta ++ [ModelEvt.done])).countP isDeltaEvt ∧
    relayEarlier (fun _ => false) [ModelEvt.done]
      = [SseEvt.status, SseEvt.sdelta "", SseEvt.sdone] ∧
    (relayCurrent (["hello"].map ModelEvt.delta ++ [ModelEvt.done])).getLast?
      = some SseEvt.sdone :=
  relay_done_and_empty_delta (fun _ => false) ["hello"]

end BirbLm
